import Mathlib

/-!
Shallow embedding of the graph-builder core of `topo_around_buffer`
(src/lib/graph_tools.py, with the raster sampler and attribute join from the
same file).  Python floats are modelled by rational numbers; values produced
by `numpy.hypot` (a real square root) are modelled by real numbers, so the
coordinate-level control flow stays decidable while distances live in `ℝ`.
-/

namespace TopoAB

/-- Python `round` to an integer: round half to even (banker rounding).
The half-even tie rule is obtained from the half-up `round` by the
standard `2 * round (q / 2)` trick. -/
def pyRound (q : ℚ) : ℤ :=
  if Int.fract q = 1 / 2 then 2 * round (q / 2) else round q

/-- Python `round(x, 5)`: round to 5 decimal places, as used for the
coordinate snapping tolerance in `graph_tools.py`. -/
def round5 (q : ℚ) : ℚ := (pyRound (q * 100000) : ℚ) / 100000

/-- A 3D vertex (x, y, z), as in a shapely 3D coordinate tuple. -/
abbrev Coord := ℚ × ℚ × ℚ

/-- The node `key` computed inside `get_node_id`:
`key = (round(x, 5), round(y, 5))` — planar only, elevation ignored. -/
def nodeKeyOf (c : Coord) : ℚ × ℚ := (round5 c.1, round5 c.2.1)

/-- The mutable node registry of `build_graph`: the insertion-ordered dict
`node_index : key -> id`, the table `nodes : id -> (x, y, z)` and the
counter `next_node_id`. -/
structure NodeState where
  node_index : List ((ℚ × ℚ) × ℕ)
  nodes : List (ℕ × Coord)
  next_node_id : ℕ
deriving DecidableEq

/-- The empty registry at the start of `build_graph`. -/
def initNS : NodeState := ⟨[], [], 0⟩

/-- Dict lookup in `node_index` (keys are unique, first match wins). -/
def lookupKey (idx : List ((ℚ × ℚ) × ℕ)) (k : ℚ × ℚ) : Option ℕ :=
  (idx.find? (fun p => decide (p.1 = k))).map (·.2)

/-- Model of `get_node_id(x, y, z)` from `graph_tools.build_graph`: look the rounded
2D key up; on a miss allocate `next_node_id`, record the unrounded
coordinates, and bump the counter. Returns the id and the updated registry. -/
def getNodeId (s : NodeState) (c : Coord) : ℕ × NodeState :=
  match lookupKey s.node_index (nodeKeyOf c) with
  | some i => (i, s)
  | none =>
      (s.next_node_id,
        ⟨s.node_index ++ [(nodeKeyOf c, s.next_node_id)],
         s.nodes ++ [(s.next_node_id, c)],
         s.next_node_id + 1⟩)

/-- Registry invariant: ids are handed out sequentially (so the id columns of
both tables read `0, 1, ..., next_node_id - 1` in insertion order) and the
dict keys are pairwise distinct. -/
def WF (s : NodeState) : Prop :=
  s.node_index.map (·.2) = List.range s.next_node_id ∧
  s.nodes.map (·.1) = List.range s.next_node_id ∧
  List.Pairwise (fun a b => a.1 ≠ b.1) s.node_index

instance (s : NodeState) : Decidable (WF s) := by
  unfold WF; infer_instance

/-- Model of `np.hypot` on rational inputs: the planar segment step length. -/
noncomputable def hypotQ (dx dy : ℚ) : ℝ :=
  Real.sqrt ((dx : ℝ) ^ 2 + (dy : ℝ) ^ 2)

/-- The loop body state of `compute_measures`: walk the remaining vertices,
carrying the previous vertex and the running (dist, gain, loss). -/
noncomputable def measuresAux : Coord → List Coord → ℝ → ℝ → ℝ → List (ℝ × ℝ × ℝ)
  | _, [], _, _, _ => []
  | p, q :: rest, d, g, l =>
      let dz : ℚ := q.2.2 - p.2.2
      let d2 := d + hypotQ (q.1 - p.1) (q.2.1 - p.2.1)
      let g2 := if 0 < dz then g + (dz : ℝ) else g
      let l2 := if 0 < dz then l else l + |(dz : ℝ)|
      (d2, g2, l2) :: measuresAux q rest d2 g2 l2

/-- Model of `compute_measures(coords)` from `graph_tools.build_graph`: starts at
`(0.0, 0.0, 0.0)` and appends one cumulative (distance, gain, loss) triple
per further vertex. -/
noncomputable def computeMeasures (coords : List Coord) : List (ℝ × ℝ × ℝ) :=
  (0, 0, 0) ::
    match coords with
    | [] => []
    | p :: rest => measuresAux p rest 0 0 0

/-- Shapely `geom.length` for a (3D) LineString: the sum of the planar 2D
segment lengths (shapely length ignores z). -/
noncomputable def shapelyLength : List Coord → ℝ
  | p :: q :: rest => hypotQ (q.1 - p.1) (q.2.1 - p.2.1) + shapelyLength (q :: rest)
  | _ => 0

/-- The `TRAIL_FACTOR` dict lookup with default 1.0. -/
noncomputable def trailFactor (h : String) : ℝ :=
  if h = "path" then 0.5 else if h = "track" then 0.5 else
    if h = "footway" then 0.5 else 1

/-- Model of `MAIN_TRAIL_FACTOR if is_main else 1.0`, with
`is_main = (row.get("main_trail", "") == "yes")`. -/
noncomputable def priorityFactor (mt : String) : ℝ :=
  if mt = "yes" then 0.1 else 1

/-- One input row of the GeoDataFrame reaching `build_graph`: the snapped 3D
geometry plus the two consumed tag columns (missing tags read as `""`). -/
structure Row where
  geometry : List Coord
  highway : String
  mainTrail : String

/-- One record of the `edges` list built by `build_graph` (`end` is a Lean
keyword, so the field is named `endNode`). -/
structure GEdge where
  startNode : ℕ
  endNode : ℕ
  weight : ℝ
  geometry : List Coord
  measuresForward : List (ℝ × ℝ × ℝ)
  measuresReverse : List (ℝ × ℝ × ℝ)

noncomputable instance : Inhabited GEdge := ⟨⟨0, 0, 0, [], [], []⟩⟩

/-- The body of the `for _, row in gdf.iterrows()` loop of `build_graph`:
snap both endpoints to node ids (mutating the registry), skip the row if the
ids coincide, otherwise append the weighted edge with both measure tables. -/
noncomputable def buildStep (acc : NodeState × List GEdge) (r : Row) :
    NodeState × List GEdge :=
  let coords := r.geometry
  let a := getNodeId acc.1 coords.headI
  let b := getNodeId a.2 coords.getLastI
  if a.1 = b.1 then (b.2, acc.2)
  else
    (b.2, acc.2 ++
      [⟨a.1, b.1,
        shapelyLength coords * trailFactor r.highway * priorityFactor r.mainTrail,
        coords, computeMeasures coords, computeMeasures coords.reverse⟩])

/-- Model of `build_graph(gdf)` (the networkx graph receives exactly the same
(start, end, weight) triples as the edge list, so it is not modelled
separately). -/
noncomputable def buildGraph (rows : List Row) : NodeState × List GEdge :=
  rows.foldl buildStep (initNS, [])

/-- Running `get_node_id` over a sequence of vertices, keeping only the
registry: the shape of every registry state reachable during a
`build_graph` run. -/
def runNodeIds (s : NodeState) (cs : List Coord) : NodeState :=
  cs.foldl (fun s c => (getNodeId s c).2) s

/-! ### Registry lemmas -/

theorem headI_mem {α} [Inhabited α] {l : List α} (h : l ≠ []) : l.headI ∈ l := by
  cases l with
  | nil => exact absurd rfl h
  | cons a t => exact List.mem_cons_self a t

theorem mem_of_lookupKey {idx : List ((ℚ × ℚ) × ℕ)} {k : ℚ × ℚ} {i : ℕ}
    (h : lookupKey idx k = some i) : (k, i) ∈ idx := by
  unfold lookupKey at h
  cases hf : idx.find? (fun p => decide (p.1 = k)) with
  | none => rw [hf] at h; simp at h
  | some p =>
      rw [hf] at h
      have hp : p.1 = k := by simpa using List.find?_some hf
      have hm : p ∈ idx := List.mem_of_find?_eq_some hf
      have hi : p.2 = i := by simpa using h
      have : p = (k, i) := Prod.ext hp hi
      rwa [this] at hm

theorem lookupKey_eq_none {idx : List ((ℚ × ℚ) × ℕ)} {k : ℚ × ℚ} :
    lookupKey idx k = none ↔ ∀ p ∈ idx, p.1 ≠ k := by
  unfold lookupKey
  simp [List.find?_eq_none]

theorem lookupKey_of_mem {idx : List ((ℚ × ℚ) × ℕ)} {k : ℚ × ℚ} {i : ℕ}
    (hpw : List.Pairwise (fun a b => a.1 ≠ b.1) idx) (hm : (k, i) ∈ idx) :
    lookupKey idx k = some i := by
  induction idx with
  | nil => cases hm
  | cons p t ih =>
      rcases List.mem_cons.mp hm with h | h
      · subst h
        unfold lookupKey
        simp [List.find?_cons]
      · have hne : p.1 ≠ k := by
          intro hk
          exact (List.pairwise_cons.mp hpw).1 (k, i) h hk
        unfold lookupKey at *
        rw [List.find?_cons]
        have : (decide (p.1 = k)) = false := by simpa using hne
        rw [this]
        exact ih (List.pairwise_cons.mp hpw).2 h

/-- With sequentially allocated ids, distinct keys have distinct ids. -/
theorem ids_distinct {idx : List ((ℚ × ℚ) × ℕ)} {n : ℕ}
    (hseq : idx.map (·.2) = List.range n) {k₁ k₂ : ℚ × ℚ} {i j : ℕ}
    (h₁ : (k₁, i) ∈ idx) (h₂ : (k₂, j) ∈ idx) (hk : k₁ ≠ k₂) : i ≠ j := by
  intro hij
  have hnd : (idx.map (·.2)).Nodup := by rw [hseq]; exact List.nodup_range n
  have := List.inj_on_of_nodup_map hnd h₁ h₂ (by simpa using hij)
  exact hk (congrArg Prod.fst this)

theorem id_lt_of_mem {idx : List ((ℚ × ℚ) × ℕ)} {n : ℕ}
    (hseq : idx.map (·.2) = List.range n) {k : ℚ × ℚ} {i : ℕ}
    (hm : (k, i) ∈ idx) : i < n := by
  have : i ∈ idx.map (·.2) := List.mem_map.mpr ⟨(k, i), hm, rfl⟩
  rw [hseq] at this
  exact List.mem_range.mp this

theorem getNodeId_key_mem (s : NodeState) (c : Coord) :
    (nodeKeyOf c, (getNodeId s c).1) ∈ (getNodeId s c).2.node_index := by
  unfold getNodeId
  cases h : lookupKey s.node_index (nodeKeyOf c) with
  | some i => exact mem_of_lookupKey h
  | none => simp

theorem getNodeId_index_mono (s : NodeState) (c : Coord) {p} (hp : p ∈ s.node_index) :
    p ∈ (getNodeId s c).2.node_index := by
  unfold getNodeId
  cases h : lookupKey s.node_index (nodeKeyOf c) with
  | some i => exact hp
  | none => exact List.mem_append_left _ hp

theorem getNodeId_nodes_mono (s : NodeState) (c : Coord) {p} (hp : p ∈ s.nodes) :
    p ∈ (getNodeId s c).2.nodes := by
  unfold getNodeId
  cases h : lookupKey s.node_index (nodeKeyOf c) with
  | some i => exact hp
  | none => exact List.mem_append_left _ hp

theorem getNodeId_next_mono (s : NodeState) (c : Coord) :
    s.next_node_id ≤ (getNodeId s c).2.next_node_id := by
  unfold getNodeId
  cases h : lookupKey s.node_index (nodeKeyOf c) with
  | some i => exact le_refl _
  | none => exact Nat.le_succ _

theorem getNodeId_id_lt (s : NodeState) (hs : WF s) (c : Coord) :
    (getNodeId s c).1 < (getNodeId s c).2.next_node_id := by
  unfold getNodeId
  cases h : lookupKey s.node_index (nodeKeyOf c) with
  | some i => exact id_lt_of_mem hs.1 (mem_of_lookupKey h)
  | none => exact Nat.lt_succ_self _

theorem WF_getNodeId (s : NodeState) (hs : WF s) (c : Coord) : WF (getNodeId s c).2 := by
  unfold getNodeId
  cases h : lookupKey s.node_index (nodeKeyOf c) with
  | some i => exact hs
  | none =>
      obtain ⟨h1, h2, h3⟩ := hs
      refine ⟨?_, ?_, ?_⟩
      · simpa [List.range_succ] using h1
      · simpa [List.range_succ] using h2
      · rw [List.pairwise_append]
        refine ⟨h3, List.pairwise_singleton _ _, ?_⟩
        intro a ha b hb
        rw [List.mem_singleton] at hb
        subst hb
        exact (lookupKey_eq_none.mp h) a ha

theorem WF_runNodeIds (s : NodeState) (hs : WF s) (cs : List Coord) :
    WF (runNodeIds s cs) := by
  induction cs generalizing s with
  | nil => exact hs
  | cons c t ih => exact ih _ (WF_getNodeId s hs c)

theorem runNodeIds_index_mono (s : NodeState) (cs : List Coord) {p}
    (hp : p ∈ s.node_index) : p ∈ (runNodeIds s cs).node_index := by
  induction cs generalizing s with
  | nil => exact hp
  | cons c t ih => exact ih _ (getNodeId_index_mono s c hp)

theorem runNodeIds_next_mono (s : NodeState) (cs : List Coord) :
    s.next_node_id ≤ (runNodeIds s cs).next_node_id := by
  induction cs generalizing s with
  | nil => exact le_refl _
  | cons c t ih => exact (getNodeId_next_mono s c).trans (ih _)

/-- Core identity lemma: after vertex `c₁` has been given its id from any
well formed registry, and any further vertices `cs` have been interned, a
vertex `c₂` receives the same id as `c₁` exactly when the two rounded 2D
keys agree. -/
theorem nodeId_eq_iff (s : NodeState) (hs : WF s) (cs : List Coord) (c₁ c₂ : Coord) :
    (getNodeId (runNodeIds (getNodeId s c₁).2 cs) c₂).1 = (getNodeId s c₁).1 ↔
      nodeKeyOf c₂ = nodeKeyOf c₁ := by
  set i₁ := (getNodeId s c₁).1 with hi₁
  set s₁ := (getNodeId s c₁).2 with hs₁
  have hs₁WF : WF s₁ := WF_getNodeId s hs c₁
  set s₂ := runNodeIds s₁ cs with hs₂
  have hs₂WF : WF s₂ := WF_runNodeIds s₁ hs₁WF cs
  have hmem₁ : (nodeKeyOf c₁, i₁) ∈ s₁.node_index := getNodeId_key_mem s c₁
  have hmem₂ : (nodeKeyOf c₁, i₁) ∈ s₂.node_index := runNodeIds_index_mono s₁ cs hmem₁
  have hi₁lt : i₁ < s₂.next_node_id :=
    lt_of_lt_of_le (by simpa [hi₁, hs₁] using getNodeId_id_lt s hs c₁)
      (runNodeIds_next_mono s₁ cs)
  constructor
  · intro hid
    by_contra hk
    unfold getNodeId at hid
    cases h : lookupKey s₂.node_index (nodeKeyOf c₂) with
    | some j =>
        rw [h] at hid
        simp at hid
        exact ids_distinct hs₂WF.1 (mem_of_lookupKey h) hmem₂ hk hid
    | none =>
        rw [h] at hid
        simp at hid
        omega
  · intro hk
    have : lookupKey s₂.node_index (nodeKeyOf c₂) = some i₁ := by
      rw [hk]
      exact lookupKey_of_mem hs₂WF.2.2 hmem₂
    unfold getNodeId
    rw [this]

/-! ### Measure lemmas -/

/-- The list of adjacent vertex pairs of a polyline, the pairs the loop of
`compute_measures` iterates over. -/
def adjPairs {α : Type} : List α → List (α × α)
  | a :: b :: rest => (a, b) :: adjPairs (b :: rest)
  | _ => []

theorem adjPairs_append_single {α : Type} (l : List α) (x : α) :
    adjPairs (l ++ [x]) = adjPairs l ++ (l.getLast?.map (fun g => (g, x))).toList := by
  induction l with
  | nil => rfl
  | cons y t ih =>
      cases t with
      | nil => rfl
      | cons z t2 =>
          show adjPairs (y :: ((z :: t2) ++ [x])) = _
          rw [show adjPairs (y :: ((z :: t2) ++ [x])) =
            (y, z) :: adjPairs ((z :: t2) ++ [x]) from rfl, ih]
          simp [adjPairs, List.getLast?_cons_cons]

theorem adjPairs_reverse {α : Type} (l : List α) :
    adjPairs l.reverse = ((adjPairs l).map Prod.swap).reverse := by
  induction l with
  | nil => rfl
  | cons x xs ih =>
      rw [List.reverse_cons, adjPairs_append_single, ih, List.getLast?_reverse]
      cases xs with
      | nil => rfl
      | cons h t => simp [adjPairs]

/-- Per-pair planar distance, the `np.hypot(x2 - x1, y2 - y1)` step. -/
noncomputable def distTerm (p q : Coord) : ℝ :=
  hypotQ (q.1 - p.1) (q.2.1 - p.2.1)

/-- Per-pair ascent contribution: `dz` when `dz > 0`, else nothing. -/
noncomputable def gainTerm (p q : Coord) : ℝ :=
  if 0 < q.2.2 - p.2.2 then ((q.2.2 - p.2.2 : ℚ) : ℝ) else 0

/-- Per-pair descent contribution: `abs(dz)` when `dz <= 0`, else nothing. -/
noncomputable def lossTerm (p q : Coord) : ℝ :=
  if 0 < q.2.2 - p.2.2 then 0 else |((q.2.2 - p.2.2 : ℚ) : ℝ)|

/-- Sum of a per-pair contribution over all adjacent pairs of a polyline. -/
noncomputable def pairSum (f : Coord → Coord → ℝ) (l : List Coord) : ℝ :=
  ((adjPairs l).map (fun pq => f pq.1 pq.2)).sum

theorem pairSum_reverse {f g : Coord → Coord → ℝ} (hsym : ∀ p q, f q p = g p q)
    (l : List Coord) : pairSum f l.reverse = pairSum g l := by
  unfold pairSum
  rw [adjPairs_reverse, List.map_reverse, List.sum_reverse, List.map_map]
  refine congrArg _ (List.map_congr_left ?_)
  intro pq _
  simpa using hsym pq.1 pq.2

theorem distTerm_symm (p q : Coord) : distTerm q p = distTerm p q := by
  unfold distTerm hypotQ
  push_cast
  ring_nf

theorem hypotQ_nonneg (dx dy : ℚ) : 0 ≤ hypotQ dx dy :=
  Real.sqrt_nonneg _

theorem gainTerm_swap (p q : Coord) : gainTerm q p = lossTerm p q := by
  unfold gainTerm lossTerm
  rcases lt_trichotomy (0 : ℚ) (q.2.2 - p.2.2) with h | h | h
  · rw [if_neg (show ¬ (0 : ℚ) < p.2.2 - q.2.2 by linarith), if_pos h]
  · rw [if_neg (show ¬ (0 : ℚ) < p.2.2 - q.2.2 by linarith),
      if_neg (show ¬ (0 : ℚ) < q.2.2 - p.2.2 by linarith)]
    have hz : q.2.2 - p.2.2 = 0 := by linarith
    rw [hz]
    simp
  · rw [if_pos (show (0 : ℚ) < p.2.2 - q.2.2 by linarith),
      if_neg (show ¬ (0 : ℚ) < q.2.2 - p.2.2 by linarith)]
    have hneg : ((q.2.2 - p.2.2 : ℚ) : ℝ) < 0 := by exact_mod_cast h
    rw [abs_of_neg hneg]
    push_cast
    ring

theorem shapelyLength_eq_pairSum (l : List Coord) :
    shapelyLength l = pairSum distTerm l := by
  induction l with
  | nil => rfl
  | cons p t ih =>
      cases t with
      | nil => rfl
      | cons q t2 =>
          show hypotQ _ _ + shapelyLength (q :: t2) = _
          rw [ih]
          simp [pairSum, adjPairs, distTerm]

theorem shapelyLength_reverse (l : List Coord) :
    shapelyLength l.reverse = shapelyLength l := by
  rw [shapelyLength_eq_pairSum, shapelyLength_eq_pairSum]
  exact pairSum_reverse distTerm_symm l

/-- The final entry of the measures list in terms of whole-line pair sums. -/
theorem measuresAux_getLastD (rest : List Coord) :
    ∀ (p : Coord) (d g l : ℝ) (z : ℝ × ℝ × ℝ),
    ((d, g, l) :: measuresAux p rest d g l).getLastD z =
      (d + pairSum distTerm (p :: rest),
       g + pairSum gainTerm (p :: rest),
       l + pairSum lossTerm (p :: rest)) := by
  induction rest with
  | nil =>
      intro p d g l z
      simp [measuresAux, pairSum, adjPairs]
  | cons q t ih =>
      intro p d g l z
      rw [show measuresAux p (q :: t) d g l =
        (d + hypotQ (q.1 - p.1) (q.2.1 - p.2.1),
         if 0 < q.2.2 - p.2.2 then g + ((q.2.2 - p.2.2 : ℚ) : ℝ) else g,
         if 0 < q.2.2 - p.2.2 then l else l + |((q.2.2 - p.2.2 : ℚ) : ℝ)|) ::
          measuresAux q t
            (d + hypotQ (q.1 - p.1) (q.2.1 - p.2.1))
            (if 0 < q.2.2 - p.2.2 then g + ((q.2.2 - p.2.2 : ℚ) : ℝ) else g)
            (if 0 < q.2.2 - p.2.2 then l else l + |((q.2.2 - p.2.2 : ℚ) : ℝ)|) from rfl]
      rw [List.getLastD_cons, ih]
      have hps : ∀ f : Coord → Coord → ℝ,
          pairSum f (p :: q :: t) = f p q + pairSum f (q :: t) := by
        intro f
        simp [pairSum, adjPairs]
      rw [hps distTerm, hps gainTerm, hps lossTerm]
      refine Prod.ext ?_ (Prod.ext ?_ ?_)
      · show d + hypotQ (q.1 - p.1) (q.2.1 - p.2.1) + pairSum distTerm (q :: t) = _
        unfold distTerm
        ring
      · by_cases h : 0 < q.2.2 - p.2.2
        · simp [gainTerm, h]
          ring
        · simp [gainTerm, h]
      · by_cases h : 0 < q.2.2 - p.2.2
        · simp [lossTerm, h]
        · simp [lossTerm, h]
          ring

/-- The Python `measures[-1]` access (every measure list is nonempty). -/
noncomputable def lastMeasure (l : List (ℝ × ℝ × ℝ)) : ℝ × ℝ × ℝ :=
  l.getLastD (0, 0, 0)

theorem computeMeasures_last (coords : List Coord) :
    lastMeasure (computeMeasures coords) =
      (shapelyLength coords, pairSum gainTerm coords, pairSum lossTerm coords) := by
  cases coords with
  | nil => simp [computeMeasures, lastMeasure, shapelyLength, pairSum, adjPairs]
  | cons p rest =>
      unfold lastMeasure computeMeasures
      rw [measuresAux_getLastD, shapelyLength_eq_pairSum]
      simp

theorem measuresAux_length (rest : List Coord) :
    ∀ (p : Coord) (d g l : ℝ), (measuresAux p rest d g l).length = rest.length := by
  induction rest with
  | nil => intro p d g l; rfl
  | cons q t ih =>
      intro p d g l
      show (measuresAux p (q :: t) d g l).length = t.length + 1
      rw [show measuresAux p (q :: t) d g l = _ :: measuresAux q t _ _ _ from rfl]
      simp [ih]

theorem computeMeasures_length {coords : List Coord} (h : coords ≠ []) :
    (computeMeasures coords).length = coords.length := by
  cases coords with
  | nil => exact absurd rfl h
  | cons p rest =>
      show (computeMeasures (p :: rest)).length = rest.length + 1
      unfold computeMeasures
      simp [measuresAux_length]

theorem computeMeasures_headI (coords : List Coord) :
    (computeMeasures coords).headI = (0, 0, 0) := rfl

/-- Componentwise order on measure triples: all three running totals grow. -/
def mono3 (a b : ℝ × ℝ × ℝ) : Prop :=
  a.1 ≤ b.1 ∧ a.2.1 ≤ b.2.1 ∧ a.2.2 ≤ b.2.2

theorem measuresAux_chain (rest : List Coord) :
    ∀ (p : Coord) (d g l : ℝ),
    List.Chain' mono3 ((d, g, l) :: measuresAux p rest d g l) := by
  induction rest with
  | nil => intro p d g l; exact List.chain'_singleton _
  | cons q t ih =>
      intro p d g l
      rw [show measuresAux p (q :: t) d g l =
        (d + hypotQ (q.1 - p.1) (q.2.1 - p.2.1),
         if 0 < q.2.2 - p.2.2 then g + ((q.2.2 - p.2.2 : ℚ) : ℝ) else g,
         if 0 < q.2.2 - p.2.2 then l else l + |((q.2.2 - p.2.2 : ℚ) : ℝ)|) ::
          measuresAux q t _ _ _ from rfl]
      rw [List.chain'_cons]
      refine ⟨?_, ih q _ _ _⟩
      unfold mono3
      refine ⟨?_, ?_, ?_⟩ <;> dsimp only
      · exact le_add_of_nonneg_right (hypotQ_nonneg _ _)
      · by_cases h : 0 < q.2.2 - p.2.2
        · rw [if_pos h]
          have : (0 : ℝ) ≤ ((q.2.2 - p.2.2 : ℚ) : ℝ) := by exact_mod_cast le_of_lt h
          linarith
        · rw [if_neg h]
      · by_cases h : 0 < q.2.2 - p.2.2
        · rw [if_pos h]
        · rw [if_neg h]
          exact le_add_of_nonneg_right (abs_nonneg _)

/-! ### The loop invariant of build_graph -/

theorem foldl_buildStep_inv (P : NodeState × List GEdge → Prop) (full : List Row)
    (hstep : ∀ acc r, r ∈ full → P acc → P (buildStep acc r)) :
    ∀ (rows : List Row) (acc : NodeState × List GEdge),
      (∀ r ∈ rows, r ∈ full) → P acc → P (rows.foldl buildStep acc) := by
  intro rows
  induction rows with
  | nil => intro acc _ h; exact h
  | cons r t ih =>
      intro acc hsub h
      exact ih _ (fun x hx => hsub x (List.mem_cons_of_mem r hx))
        (hstep acc r (hsub r (List.mem_cons_self r t)) h)

/-- Everything the per-edge claims need, as one invariant over the loop
state of `build_graph`. -/
def EdgeOK (full : List Row) (st : NodeState × List GEdge) : Prop :=
  WF st.1 ∧
  ∀ e ∈ st.2,
    e.startNode ≠ e.endNode ∧
    e.startNode < st.1.next_node_id ∧
    e.endNode < st.1.next_node_id ∧
    nodeKeyOf e.geometry.headI ≠ nodeKeyOf e.geometry.getLastI ∧
    e.measuresForward = computeMeasures e.geometry ∧
    e.measuresReverse = computeMeasures e.geometry.reverse ∧
    ∃ r ∈ full, e.geometry = r.geometry ∧
      e.weight = shapelyLength r.geometry * trailFactor r.highway * priorityFactor r.mainTrail

theorem EdgeOK_buildStep (full : List Row) (acc : NodeState × List GEdge) (r : Row)
    (hr : r ∈ full) (h : EdgeOK full acc) : EdgeOK full (buildStep acc r) := by
  obtain ⟨hWF, hE⟩ := h
  have hWFa : WF (getNodeId acc.1 r.geometry.headI).2 := WF_getNodeId _ hWF _
  have hWFb : WF (getNodeId (getNodeId acc.1 r.geometry.headI).2 r.geometry.getLastI).2 :=
    WF_getNodeId _ hWFa _
  have hmono : acc.1.next_node_id ≤
      (getNodeId (getNodeId acc.1 r.geometry.headI).2 r.geometry.getLastI).2.next_node_id :=
    (getNodeId_next_mono _ _).trans (getNodeId_next_mono _ _)
  unfold buildStep
  by_cases hab : (getNodeId acc.1 r.geometry.headI).1 =
      (getNodeId (getNodeId acc.1 r.geometry.headI).2 r.geometry.getLastI).1
  · rw [if_pos hab]
    refine ⟨hWFb, ?_⟩
    intro e he
    obtain ⟨h1, h2, h3, h4⟩ := hE e he
    exact ⟨h1, lt_of_lt_of_le h2 hmono, lt_of_lt_of_le h3 hmono, h4⟩
  · rw [if_neg hab]
    refine ⟨hWFb, ?_⟩
    intro e he
    rcases List.mem_append.mp he with he | he
    · obtain ⟨h1, h2, h3, h4⟩ := hE e he
      exact ⟨h1, lt_of_lt_of_le h2 hmono, lt_of_lt_of_le h3 hmono, h4⟩
    · rw [List.mem_singleton] at he
      subst he
      refine ⟨hab, ?_, ?_, ?_, rfl, rfl, r, hr, rfl, rfl⟩
      · exact lt_of_lt_of_le (getNodeId_id_lt _ hWF _) (getNodeId_next_mono _ _)
      · exact getNodeId_id_lt _ hWFa _
      · intro hkeq
        exact hab ((nodeId_eq_iff acc.1 hWF [] r.geometry.headI r.geometry.getLastI).mpr
          hkeq.symm).symm

theorem buildGraph_EdgeOK (rows : List Row) : EdgeOK rows (buildGraph rows) := by
  unfold buildGraph
  refine foldl_buildStep_inv (EdgeOK rows) rows
    (fun acc r hr h => EdgeOK_buildStep rows acc r hr h) rows _ (fun r hr => hr) ?_
  refine ⟨⟨rfl, rfl, List.Pairwise.nil⟩, ?_⟩
  intro e he
  cases he

/-- Fully evaluated run of `build_graph` on a single row whose endpoint keys
differ: two nodes and one edge. -/
theorem buildGraph_singleton (r : Row)
    (hk : nodeKeyOf r.geometry.headI ≠ nodeKeyOf r.geometry.getLastI) :
    buildGraph [r] =
      (⟨[(nodeKeyOf r.geometry.headI, 0), (nodeKeyOf r.geometry.getLastI, 1)],
        [(0, r.geometry.headI), (1, r.geometry.getLastI)], 2⟩,
       [⟨0, 1,
         shapelyLength r.geometry * trailFactor r.highway * priorityFactor r.mainTrail,
         r.geometry, computeMeasures r.geometry, computeMeasures r.geometry.reverse⟩]) := by
  have h1 : getNodeId initNS r.geometry.headI =
      (0, ⟨[(nodeKeyOf r.geometry.headI, 0)], [(0, r.geometry.headI)], 1⟩) := rfl
  have h2 : getNodeId ⟨[(nodeKeyOf r.geometry.headI, 0)], [(0, r.geometry.headI)], 1⟩
      r.geometry.getLastI =
      (1, ⟨[(nodeKeyOf r.geometry.headI, 0), (nodeKeyOf r.geometry.getLastI, 1)],
           [(0, r.geometry.headI), (1, r.geometry.getLastI)], 2⟩) := by
    unfold getNodeId
    have hl : lookupKey [(nodeKeyOf r.geometry.headI, 0)] (nodeKeyOf r.geometry.getLastI)
        = none := by
      rw [lookupKey_eq_none]
      intro p hp
      rw [List.mem_singleton] at hp
      subst hp
      exact hk
    rw [hl]
    rfl
  show buildStep (initNS, []) r = _
  unfold buildStep
  dsimp only
  rw [h1]
  dsimp only
  rw [h2]
  dsimp only
  rw [if_neg (by norm_num : ¬ (0 : ℕ) = 1)]
  simp

/-! ### Raster sampling (add_z_to_lines) -/

/-- Numpy 1D integer indexing: in-range indices read directly, negative
indices within `-len .. -1` wrap from the end, anything else is an
IndexError (modelled as `none`). -/
def npGet {α : Type} (l : List α) (i : ℤ) : Option α :=
  if 0 ≤ i ∧ i < l.length then l[i.toNat]?
  else if -(l.length : ℤ) ≤ i ∧ i < 0 then l[(i + l.length).toNat]?
  else none

/-- One element of the fancy lookup `dem[rows, cols]`. -/
def sampleRaster (dem : List (List ℚ)) (r c : ℤ) : Option ℚ :=
  (npGet dem r).bind fun rowv => npGet rowv c

/-- Model of `line_with_z` from `add_z_to_lines`: sample the raster at every vertex
(`rowcolOf` stands for `rowcol(transform, x, y, op=round)`); numpy raises on
the whole fancy-index read if any vertex is out of bounds (`none`), and
otherwise `np.where(z == nodata, 0.0, z)` substitutes zero when a nodata
value is declared. -/
def readSamples (dem : List (List ℚ)) (rowcolOf : ℚ × ℚ → ℤ × ℤ) :
    List (ℚ × ℚ) → Option (List ((ℚ × ℚ) × ℚ))
  | [] => some []
  | xy :: rest =>
      match sampleRaster dem (rowcolOf xy).1 (rowcolOf xy).2,
          readSamples dem rowcolOf rest with
      | some z, some tail => some ((xy, z) :: tail)
      | _, _ => none

def lineWithZ (dem : List (List ℚ)) (nodata : Option ℚ)
    (rowcolOf : ℚ × ℚ → ℤ × ℤ) (coords : List (ℚ × ℚ)) : Option (List Coord) :=
  (readSamples dem rowcolOf coords).map fun samples =>
    samples.map fun sz =>
      (sz.1.1, sz.1.2,
        match nodata with
        | some nd => if sz.2 = nd then 0 else sz.2
        | none => sz.2)

/-! ### Attribute join (load_data step 4) -/

/-- Model of `gpd.sjoin(new_gdf, gdf_raw, how="left", predicate="within")`: every
split segment is kept; a segment produces one output row per matching
original (in original order), or a single row with null attributes when
nothing matches. -/
def sjoinLeftWithin {γ A : Type} (w : γ → γ → Bool) (segs : List γ)
    (orig : List (γ × A)) : List (γ × Option A) :=
  segs.flatMap fun s =>
    match orig.filter (fun f => w s f.1) with
    | [] => [(s, none)]
    | f :: fs => (f :: fs).map fun f2 => (s, some f2.2)

/-- Model of `drop_duplicates(subset=["geometry"])`: keep the first row for each
geometry. -/
def dropDupGeomAux {γ A : Type} [DecidableEq γ] (seen : List γ) :
    List (γ × Option A) → List (γ × Option A)
  | [] => []
  | p :: rest =>
      if p.1 ∈ seen then dropDupGeomAux seen rest
      else p :: dropDupGeomAux (p.1 :: seen) rest

def dropDupGeom {γ A : Type} [DecidableEq γ] (l : List (γ × Option A)) :
    List (γ × Option A) :=
  dropDupGeomAux [] l

/-- Step 4 of `load_data`: left spatial join then geometry dedup. -/
def attachAttrs {γ A : Type} [DecidableEq γ] (w : γ → γ → Bool) (segs : List γ)
    (orig : List (γ × A)) : List (γ × Option A) :=
  dropDupGeom (sjoinLeftWithin w segs orig)

/-- Plain keep-first deduplication of a list, for stating what the join
does to the set of geometries. -/
def dedupAux {γ : Type} [DecidableEq γ] (seen : List γ) : List γ → List γ
  | [] => []
  | s :: rest =>
      if s ∈ seen then dedupAux seen rest
      else s :: dedupAux (s :: seen) rest

def dedupKeepFirst {γ : Type} [DecidableEq γ] (l : List γ) : List γ :=
  dedupAux [] l

theorem find?_of_filter_eq_cons {α : Type} {p : α → Bool} {l : List α} {f : α}
    {fs : List α} (h : l.filter p = f :: fs) : l.find? p = some f := by
  induction l generalizing fs with
  | nil => simp at h
  | cons a t ih =>
      by_cases hp : p a
      · rw [List.filter_cons_of_pos hp] at h
        injection h with h1 h2
        subst h1
        exact List.find?_cons_of_pos t hp
      · rw [List.filter_cons_of_neg hp] at h
        rw [List.find?_cons_of_neg t hp]
        exact ih h

theorem find?_of_filter_eq_nil {α : Type} {p : α → Bool} {l : List α}
    (h : l.filter p = []) : l.find? p = none := by
  rw [List.find?_eq_none]
  intro x hx hpx
  have : x ∈ l.filter p := List.mem_filter.mpr ⟨hx, hpx⟩
  rw [h] at this
  cases this

theorem dropDupGeomAux_all_seen {γ A : Type} [DecidableEq γ] (seen : List γ)
    (g l : List (γ × Option A)) (hg : ∀ p ∈ g, p.1 ∈ seen) :
    dropDupGeomAux seen (g ++ l) = dropDupGeomAux seen l := by
  induction g with
  | nil => rfl
  | cons p t ih =>
      show dropDupGeomAux seen (p :: (t ++ l)) = _
      rw [show dropDupGeomAux seen (p :: (t ++ l)) =
        if p.1 ∈ seen then dropDupGeomAux seen (t ++ l)
        else p :: dropDupGeomAux (p.1 :: seen) (t ++ l) from rfl]
      rw [if_pos (hg p (List.mem_cons_self p t))]
      exact ih fun q hq => hg q (List.mem_cons_of_mem p hq)

/-- What the join-then-dedup composite actually computes: the deduplicated
segment list, each segment paired with the attributes of its first matching
original, or `none` when nothing matches — unmatched segments are kept. -/
theorem attachAttrs_aux {γ A : Type} [DecidableEq γ] (w : γ → γ → Bool)
    (orig : List (γ × A)) (segs : List γ) :
    ∀ seen : List γ,
      dropDupGeomAux seen (sjoinLeftWithin w segs orig) =
        (dedupAux seen segs).map fun s =>
          (s, (orig.find? fun f => w s f.1).map Prod.snd) := by
  induction segs with
  | nil => intro seen; rfl
  | cons s rest ih =>
      intro seen
      have hsj : sjoinLeftWithin w (s :: rest) orig =
          (match orig.filter (fun f => w s f.1) with
           | [] => [(s, none)]
           | f :: fs => (f :: fs).map fun f2 => (s, some f2.2)) ++
            sjoinLeftWithin w rest orig := rfl
      rw [hsj]
      have hded : dedupAux seen (s :: rest) =
          if s ∈ seen then dedupAux seen rest
          else s :: dedupAux (s :: seen) rest := rfl
      by_cases hseen : s ∈ seen
      · rw [dropDupGeomAux_all_seen, hded, if_pos hseen, ih seen]
        intro p hp
        cases hfil : orig.filter (fun f => w s f.1) with
        | nil =>
            rw [hfil] at hp
            rw [List.mem_singleton] at hp
            subst hp
            exact hseen
        | cons f fs =>
            rw [hfil] at hp
            obtain ⟨f2, _, rfl⟩ := List.mem_map.mp hp
            exact hseen
      · rw [hded, if_neg hseen]
        cases hfil : orig.filter (fun f => w s f.1) with
        | nil =>
            show dropDupGeomAux seen ((s, none) :: sjoinLeftWithin w rest orig) = _
            rw [show dropDupGeomAux seen ((s, none) :: sjoinLeftWithin w rest orig) =
              if s ∈ seen then dropDupGeomAux seen (sjoinLeftWithin w rest orig)
              else (s, none) :: dropDupGeomAux (s :: seen) (sjoinLeftWithin w rest orig)
              from rfl]
            rw [if_neg hseen, ih (s :: seen), List.map_cons,
              find?_of_filter_eq_nil hfil]
            rfl
        | cons f fs =>
            show dropDupGeomAux seen
              (((s, some f.2) :: fs.map fun f2 => (s, some f2.2)) ++
                sjoinLeftWithin w rest orig) = _
            rw [show ((s, some f.2) :: fs.map fun f2 => (s, some f2.2)) ++
                sjoinLeftWithin w rest orig =
              (s, some f.2) :: ((fs.map fun f2 => (s, some f2.2)) ++
                sjoinLeftWithin w rest orig) from rfl]
            rw [show dropDupGeomAux seen ((s, some f.2) ::
                ((fs.map fun f2 => (s, some f2.2)) ++ sjoinLeftWithin w rest orig)) =
              if s ∈ seen then dropDupGeomAux seen
                ((fs.map fun f2 => (s, some f2.2)) ++ sjoinLeftWithin w rest orig)
              else (s, some f.2) :: dropDupGeomAux (s :: seen)
                ((fs.map fun f2 => (s, some f2.2)) ++ sjoinLeftWithin w rest orig)
              from rfl]
            rw [if_neg hseen]
            rw [dropDupGeomAux_all_seen (s :: seen) _ _ ?_]
            · rw [ih (s :: seen), List.map_cons, find?_of_filter_eq_cons hfil]
              rfl
            · intro p hp
              obtain ⟨f2, _, rfl⟩ := List.mem_map.mp hp
              exact List.mem_cons_self s seen

/-! ### Noderization (load_data step 3)

`load_data` delegates the topology split to `shapely.ops.unary_union`, an
external GEOS routine with no source in this repository.  Modelled from the
spec: "split all lines at every intersection point", by cutting every
segment at each interior point where another segment crosses or touches
it. -/

/-- A 2D straight line segment. -/
structure Seg2 where
  a : ℚ × ℚ
  b : ℚ × ℚ
deriving DecidableEq

def cross2 (u v : ℚ × ℚ) : ℚ := u.1 * v.2 - u.2 * v.1

def sub2 (u v : ℚ × ℚ) : ℚ × ℚ := (u.1 - v.1, u.2 - v.2)

/-- Point of a segment at parameter `t` (its endpoints are `t = 0, 1`). -/
def pointAt (s : Seg2) (t : ℚ) : ℚ × ℚ :=
  (s.a.1 + t * (s.b.1 - s.a.1), s.a.2 + t * (s.b.2 - s.a.2))

/-- Modelled from the spec: the parameter pair of the unique meeting point
of the two supporting lines, when the segments are not parallel. -/
def interParams (s t : Seg2) : Option (ℚ × ℚ) :=
  let d := cross2 (sub2 s.b s.a) (sub2 t.b t.a)
  if d = 0 then none
  else some (cross2 (sub2 t.a s.a) (sub2 t.b t.a) / d,
             cross2 (sub2 t.a s.a) (sub2 s.b s.a) / d)

/-- Modelled from the spec: the interior parameters of `s` where some other
segment meets it (noding points). -/
def splitParams (s : Seg2) (others : List Seg2) : List ℚ :=
  others.filterMap fun t =>
    (interParams s t).bind fun tp =>
      if 0 < tp.1 ∧ tp.1 < 1 ∧ 0 ≤ tp.2 ∧ tp.2 ≤ 1 then some tp.1 else none

/-- Modelled from the spec: cut one segment at the given parameters. -/
def splitSeg (s : Seg2) (params : List ℚ) : List Seg2 :=
  (adjPairs ((0 : ℚ) :: (List.insertionSort (· ≤ ·) params.dedup ++ [1]))).map
    fun pq => ⟨pointAt s pq.1, pointAt s pq.2⟩

/-- Modelled from the spec: the planar union / noderization of a set of
segments — every segment is re-emitted cut at every point where it meets
another segment. -/
def noderize (segs : List Seg2) : List Seg2 :=
  segs.flatMap fun s =>
    splitSeg s (splitParams s (segs.filter fun t => decide (t ≠ s)))

/-- Closed-segment membership of a point, for the no-crossing statement. -/
def onSeg (s : Seg2) (p : ℚ × ℚ) : Prop :=
  ∃ t : ℚ, 0 ≤ t ∧ t ≤ 1 ∧ p = pointAt s t

/-- Parameter along `s₁` of the crossing point of the two support lines. -/
def crossT₁ (s₁ s₂ : Seg2) : ℚ :=
  cross2 (sub2 s₂.a s₁.a) (sub2 s₂.b s₂.a) / cross2 (sub2 s₁.b s₁.a) (sub2 s₂.b s₂.a)

/-- Parameter along `s₂` of the crossing point of the two support lines. -/
def crossT₂ (s₁ s₂ : Seg2) : ℚ :=
  cross2 (sub2 s₂.a s₁.a) (sub2 s₁.b s₁.a) / cross2 (sub2 s₁.b s₁.a) (sub2 s₂.b s₂.a)

/-- The subsegment of `s` between parameters `c` and `c2`. -/
def pieceOf (s : Seg2) (c c2 : ℚ) : Seg2 := ⟨pointAt s c, pointAt s c2⟩

theorem pointAt_zero (s : Seg2) : pointAt s 0 = s.a := by
  unfold pointAt
  refine Prod.ext ?_ ?_ <;> dsimp <;> ring

theorem pointAt_one (s : Seg2) : pointAt s 1 = s.b := by
  unfold pointAt
  refine Prod.ext ?_ ?_ <;> dsimp <;> ring

theorem pointAt_reparam (s : Seg2) (c c2 w : ℚ) :
    pointAt (pieceOf s c c2) w = pointAt s (c + w * (c2 - c)) := by
  unfold pieceOf pointAt
  refine Prod.ext ?_ ?_ <;> dsimp <;> ring

theorem pointAt_inj {s : Seg2} (hr : sub2 s.b s.a ≠ (0, 0)) {u u2 : ℚ}
    (h : pointAt s u = pointAt s u2) : u = u2 := by
  rw [Prod.ext_iff] at h
  obtain ⟨h1, h2⟩ := h
  unfold pointAt at h1 h2
  dsimp at h1 h2
  by_contra hne
  apply hr
  unfold sub2
  have hx : s.b.1 - s.a.1 = 0 := by
    have : (u - u2) * (s.b.1 - s.a.1) = 0 := by linarith
    rcases mul_eq_zero.mp this with h | h
    · exact absurd (by linarith : u = u2) hne
    · exact h
  have hy : s.b.2 - s.a.2 = 0 := by
    have : (u - u2) * (s.b.2 - s.a.2) = 0 := by linarith
    rcases mul_eq_zero.mp this with h | h
    · exact absurd (by linarith : u = u2) hne
    · exact h
  rw [hx, hy]

/-- If a point lies on both support lines of two non-parallel segments, its
parameters are exactly the crossing parameters. -/
theorem pointAt_eq_param {s₁ s₂ : Seg2}
    (hd : cross2 (sub2 s₁.b s₁.a) (sub2 s₂.b s₂.a) ≠ 0) {u v : ℚ}
    (h : pointAt s₁ u = pointAt s₂ v) :
    u = crossT₁ s₁ s₂ ∧ v = crossT₂ s₁ s₂ := by
  rw [Prod.ext_iff] at h
  obtain ⟨h1, h2⟩ := h
  unfold pointAt at h1 h2
  dsimp at h1 h2
  unfold cross2 sub2 at hd
  unfold crossT₁ crossT₂ cross2 sub2
  constructor
  · field_simp
    linear_combination (s₂.b.2 - s₂.a.2) * h1 - (s₂.b.1 - s₂.a.1) * h2
  · field_simp
    linear_combination (s₁.b.2 - s₁.a.2) * h1 - (s₁.b.1 - s₁.a.1) * h2

theorem interParams_eval {s₁ s₂ : Seg2}
    (hd : cross2 (sub2 s₁.b s₁.a) (sub2 s₂.b s₂.a) ≠ 0) :
    interParams s₁ s₂ = some (crossT₁ s₁ s₂, crossT₂ s₁ s₂) := by
  unfold interParams
  rw [if_neg hd]
  rfl

theorem interParams_swap {s₁ s₂ : Seg2}
    (hd : cross2 (sub2 s₁.b s₁.a) (sub2 s₂.b s₂.a) ≠ 0) :
    interParams s₂ s₁ = some (crossT₂ s₁ s₂, crossT₁ s₁ s₂) := by
  have hd2 : cross2 (sub2 s₂.b s₂.a) (sub2 s₁.b s₁.a) ≠ 0 := by
    intro h
    apply hd
    unfold cross2 sub2 at h ⊢
    linear_combination -h
  unfold interParams
  rw [if_neg hd2]
  unfold crossT₁ crossT₂ cross2 sub2 at *
  congr 1
  refine Prod.ext ?_ ?_ <;> dsimp <;> (field_simp; ring)

theorem splitParams_single (s t : Seg2) :
    splitParams s [t] =
      match interParams s t with
      | none => []
      | some tp => if 0 < tp.1 ∧ tp.1 < 1 ∧ 0 ≤ tp.2 ∧ tp.2 ≤ 1 then [tp.1] else [] := by
  unfold splitParams
  cases hi : interParams s t with
  | none => simp [List.filterMap, hi]
  | some tp =>
      by_cases hc : 0 < tp.1 ∧ tp.1 < 1 ∧ 0 ≤ tp.2 ∧ tp.2 ≤ 1
      · simp [List.filterMap, hi, hc]
      · simp [List.filterMap, hi, hc]

theorem splitSeg_nil (s : Seg2) : splitSeg s [] = [pieceOf s 0 1] := rfl

theorem splitSeg_single (s : Seg2) (t : ℚ) :
    splitSeg s [t] = [pieceOf s 0 t, pieceOf s t 1] := rfl

/-- The noderization of two non-parallel segments: each is either cut at
its crossing parameter (when the crossing is interior to it and on the
other segment) or emitted whole. -/
theorem noderize_pair_cases (s₁ s₂ : Seg2)
    (hd : cross2 (sub2 s₁.b s₁.a) (sub2 s₂.b s₂.a) ≠ 0) :
    noderize [s₁, s₂] =
      (if 0 < crossT₁ s₁ s₂ ∧ crossT₁ s₁ s₂ < 1 ∧
          0 ≤ crossT₂ s₁ s₂ ∧ crossT₂ s₁ s₂ ≤ 1
        then [pieceOf s₁ 0 (crossT₁ s₁ s₂), pieceOf s₁ (crossT₁ s₁ s₂) 1]
        else [pieceOf s₁ 0 1]) ++
      (if 0 < crossT₂ s₁ s₂ ∧ crossT₂ s₁ s₂ < 1 ∧
          0 ≤ crossT₁ s₁ s₂ ∧ crossT₁ s₁ s₂ ≤ 1
        then [pieceOf s₂ 0 (crossT₂ s₁ s₂), pieceOf s₂ (crossT₂ s₁ s₂) 1]
        else [pieceOf s₂ 0 1]) := by
  have hne : s₁ ≠ s₂ := by
    intro h
    apply hd
    rw [h]
    unfold cross2 sub2
    ring
  have hf₁ : List.filter (fun t => decide (t ≠ s₁)) [s₁, s₂] = [s₂] := by
    rw [List.filter_cons_of_neg (by simp), List.filter_cons_of_pos (by simp [Ne.symm hne])]
    rfl
  have hf₂ : List.filter (fun t => decide (t ≠ s₂)) [s₁, s₂] = [s₁] := by
    rw [List.filter_cons_of_pos (by simp [hne]), List.filter_cons_of_neg (by simp)]
    rfl
  unfold noderize
  rw [show List.flatMap [s₁, s₂]
      (fun s => splitSeg s (splitParams s (List.filter (fun t => decide (t ≠ s)) [s₁, s₂]))) =
      splitSeg s₁ (splitParams s₁ (List.filter (fun t => decide (t ≠ s₁)) [s₁, s₂])) ++
      splitSeg s₂ (splitParams s₂ (List.filter (fun t => decide (t ≠ s₂)) [s₁, s₂])) by
    simp [List.flatMap]]
  rw [hf₁, hf₂, splitParams_single, splitParams_single,
    interParams_eval hd, interParams_swap hd]
  by_cases h₁ : 0 < crossT₁ s₁ s₂ ∧ crossT₁ s₁ s₂ < 1 ∧
      0 ≤ crossT₂ s₁ s₂ ∧ crossT₂ s₁ s₂ ≤ 1 <;>
    by_cases h₂ : 0 < crossT₂ s₁ s₂ ∧ crossT₂ s₁ s₂ < 1 ∧
      0 ≤ crossT₁ s₁ s₂ ∧ crossT₁ s₁ s₂ ≤ 1 <;>
    simp only [h₁, h₂, if_pos, if_neg, if_true, if_false, ite_true, ite_false,
      eq_self_iff_true, not_false_iff, splitSeg_nil, splitSeg_single] <;>
    simp [h₁, h₂, splitSeg_nil, splitSeg_single]

/-- A point of a piece is a point of the parent at a parameter inside the
piece interval. -/
theorem onSeg_pieceOf {s : Seg2} {c c2 : ℚ} (hcc : c ≤ c2) {p : ℚ × ℚ}
    (hp : onSeg (pieceOf s c c2) p) :
    ∃ α : ℚ, c ≤ α ∧ α ≤ c2 ∧ p = pointAt s α := by
  obtain ⟨w, hw0, hw1, rfl⟩ := hp
  refine ⟨c + w * (c2 - c), ?_, ?_, pointAt_reparam s c c2 w⟩
  · nlinarith
  · nlinarith

/-- A common point of a piece of `s₁` and a piece of `s₂` (non-parallel) is
a shared endpoint, provided the crossing parameters can only sit at the
piece boundaries. -/
theorem cross_piece_leaf {s₁ s₂ : Seg2}
    (hd : cross2 (sub2 s₁.b s₁.a) (sub2 s₂.b s₂.a) ≠ 0)
    {c c2 e e2 : ℚ} (hcc : c ≤ c2) (hee : e ≤ e2)
    (hu : c ≤ crossT₁ s₁ s₂ → crossT₁ s₁ s₂ ≤ c2 → e ≤ crossT₂ s₁ s₂ →
      crossT₂ s₁ s₂ ≤ e2 → crossT₁ s₁ s₂ = c ∨ crossT₁ s₁ s₂ = c2)
    (hv : c ≤ crossT₁ s₁ s₂ → crossT₁ s₁ s₂ ≤ c2 → e ≤ crossT₂ s₁ s₂ →
      crossT₂ s₁ s₂ ≤ e2 → crossT₂ s₁ s₂ = e ∨ crossT₂ s₁ s₂ = e2)
    {p : ℚ × ℚ} (hpu : onSeg (pieceOf s₁ c c2) p)
    (hpv : onSeg (pieceOf s₂ e e2) p) :
    (p = (pieceOf s₁ c c2).a ∨ p = (pieceOf s₁ c c2).b) ∧
    (p = (pieceOf s₂ e e2).a ∨ p = (pieceOf s₂ e e2).b) := by
  obtain ⟨α, hαl, hαr, rfl⟩ := onSeg_pieceOf hcc hpu
  obtain ⟨β, hβl, hβr, hp⟩ := onSeg_pieceOf hee hpv
  obtain ⟨hα, hβ⟩ := pointAt_eq_param hd hp
  subst hα
  subst hβ
  constructor
  · rcases hu hαl hαr hβl hβr with h | h
    · exact Or.inl (by rw [h]; rfl)
    · exact Or.inr (by rw [h]; rfl)
  · rcases hv hαl hαr hβl hβr with h | h
    · exact Or.inl (by rw [hp, h]; rfl)
    · exact Or.inr (by rw [hp, h]; rfl)

/-- A common point of two consecutive pieces of the same (nondegenerate)
parent is their shared cut point. -/
theorem same_piece_leaf {s : Seg2} (hr : sub2 s.b s.a ≠ (0, 0))
    {c c2 e e2 : ℚ} (hcc : c ≤ c2) (hee : e ≤ e2) (hsep : c2 ≤ e)
    {p : ℚ × ℚ} (hpu : onSeg (pieceOf s c c2) p)
    (hpv : onSeg (pieceOf s e e2) p) :
    (p = (pieceOf s c c2).a ∨ p = (pieceOf s c c2).b) ∧
    (p = (pieceOf s e e2).a ∨ p = (pieceOf s e e2).b) := by
  obtain ⟨α, hαl, hαr, rfl⟩ := onSeg_pieceOf hcc hpu
  obtain ⟨β, hβl, hβr, hp⟩ := onSeg_pieceOf hee hpv
  have hαβ : α = β := pointAt_inj hr hp
  have hα : α = c2 := by linarith
  have hβ : β = e := by linarith
  constructor
  · exact Or.inr (by rw [hα]; rfl)
  · exact Or.inl (by rw [hp, hβ]; rfl)

/-- Modelled from the spec, the general no-crossing postcondition for two
non-parallel input segments: no two distinct output segments of the
noderization meet at any point other than a shared endpoint. -/
theorem noderize_two_no_cross (s₁ s₂ : Seg2)
    (hd : cross2 (sub2 s₁.b s₁.a) (sub2 s₂.b s₂.a) ≠ 0) :
    ∀ u ∈ noderize [s₁, s₂], ∀ v ∈ noderize [s₁, s₂], u ≠ v →
      ∀ p : ℚ × ℚ, onSeg u p → onSeg v p →
        (p = u.a ∨ p = u.b) ∧ (p = v.a ∨ p = v.b) := by
  have hr₁ : sub2 s₁.b s₁.a ≠ (0, 0) := by
    intro h
    apply hd
    rw [h]
    unfold cross2
    dsimp
    ring
  have hr₂ : sub2 s₂.b s₂.a ≠ (0, 0) := by
    intro h
    apply hd
    rw [h]
    unfold cross2
    dsimp
    ring
  intro u hu v hv huv p hpu hpv
  rw [noderize_pair_cases s₁ s₂ hd] at hu hv
  by_cases h₁ : 0 < crossT₁ s₁ s₂ ∧ crossT₁ s₁ s₂ < 1 ∧
      0 ≤ crossT₂ s₁ s₂ ∧ crossT₂ s₁ s₂ ≤ 1 <;>
    by_cases h₂ : 0 < crossT₂ s₁ s₂ ∧ crossT₂ s₁ s₂ < 1 ∧
      0 ≤ crossT₁ s₁ s₂ ∧ crossT₁ s₁ s₂ ≤ 1
  · -- both segments are cut: four pieces
    rw [if_pos h₁, if_pos h₂] at hu hv
    obtain ⟨hA, hB, hC, hD⟩ := h₁
    simp only [List.mem_append, List.mem_cons, List.not_mem_nil, or_false] at hu hv
    have l12 := fun hx hy => @same_piece_leaf s₁ hr₁ 0 (crossT₁ s₁ s₂)
      (crossT₁ s₁ s₂) 1 hA.le (by linarith) le_rfl p hx hy
    have l34 := fun hx hy => @same_piece_leaf s₂ hr₂ 0 (crossT₂ s₁ s₂)
      (crossT₂ s₁ s₂) 1 h₂.1.le (by linarith [h₂.2.1]) le_rfl p hx hy
    have cr := fun (c c2 e e2 : ℚ) hcc hee hu2 hv2 hx hy =>
      @cross_piece_leaf s₁ s₂ hd c c2 e e2 hcc hee hu2 hv2 p hx hy
    rcases hu with (rfl | rfl) | rfl | rfl <;> rcases hv with (rfl | rfl) | rfl | rfl
    · exact absurd rfl huv
    · exact l12 hpu hpv
    · exact cr 0 _ 0 _ hA.le h₂.1.le
        (fun _ _ _ _ => Or.inr rfl) (fun _ _ _ _ => Or.inr rfl) hpu hpv
    · exact cr 0 _ _ 1 hA.le (by linarith [h₂.2.1])
        (fun _ _ _ _ => Or.inr rfl) (fun _ _ _ _ => Or.inl rfl) hpu hpv
    · exact ⟨(l12 hpv hpu).2, (l12 hpv hpu).1⟩
    · exact absurd rfl huv
    · exact cr _ 1 0 _ (by linarith) h₂.1.le
        (fun _ _ _ _ => Or.inl rfl) (fun _ _ _ _ => Or.inr rfl) hpu hpv
    · exact cr _ 1 _ 1 (by linarith) (by linarith [h₂.2.1])
        (fun _ _ _ _ => Or.inl rfl) (fun _ _ _ _ => Or.inl rfl) hpu hpv
    · have h := cr 0 _ 0 _ hA.le h₂.1.le
        (fun _ _ _ _ => Or.inr rfl) (fun _ _ _ _ => Or.inr rfl) hpv hpu
      exact ⟨h.2, h.1⟩
    · have h := cr _ 1 0 _ (by linarith) h₂.1.le
        (fun _ _ _ _ => Or.inl rfl) (fun _ _ _ _ => Or.inr rfl) hpv hpu
      exact ⟨h.2, h.1⟩
    · exact absurd rfl huv
    · exact l34 hpu hpv
    · have h := cr 0 _ _ 1 hA.le (by linarith [h₂.2.1])
        (fun _ _ _ _ => Or.inr rfl) (fun _ _ _ _ => Or.inl rfl) hpv hpu
      exact ⟨h.2, h.1⟩
    · have h := cr _ 1 _ 1 (by linarith) (by linarith [h₂.2.1])
        (fun _ _ _ _ => Or.inl rfl) (fun _ _ _ _ => Or.inl rfl) hpv hpu
      exact ⟨h.2, h.1⟩
    · exact ⟨(l34 hpv hpu).2, (l34 hpv hpu).1⟩
    · exact absurd rfl huv
  · -- only s₁ is cut
    rw [if_pos h₁, if_neg h₂] at hu hv
    obtain ⟨hA, hB, hC, hD⟩ := h₁
    have hT₂ : crossT₂ s₁ s₂ = 0 ∨ crossT₂ s₁ s₂ = 1 := by
      by_contra hcon
      push_neg at hcon
      exact h₂ ⟨lt_of_le_of_ne hC (Ne.symm hcon.1), lt_of_le_of_ne hD hcon.2,
        hA.le, hB.le⟩
    simp only [List.mem_append, List.mem_cons, List.not_mem_nil, or_false] at hu hv
    have l12 := fun hx hy => @same_piece_leaf s₁ hr₁ 0 (crossT₁ s₁ s₂)
      (crossT₁ s₁ s₂) 1 hA.le (by linarith) le_rfl p hx hy
    have cr := fun (c c2 : ℚ) hcc hu2 hx hy =>
      @cross_piece_leaf s₁ s₂ hd c c2 0 1 hcc zero_le_one hu2
        (fun _ _ _ _ => hT₂) p hx hy
    rcases hu with (rfl | rfl) | rfl <;> rcases hv with (rfl | rfl) | rfl
    · exact absurd rfl huv
    · exact l12 hpu hpv
    · exact cr 0 _ hA.le (fun _ _ _ _ => Or.inr rfl) hpu hpv
    · exact ⟨(l12 hpv hpu).2, (l12 hpv hpu).1⟩
    · exact absurd rfl huv
    · exact cr _ 1 (by linarith) (fun _ _ _ _ => Or.inl rfl) hpu hpv
    · have h := cr 0 _ hA.le (fun _ _ _ _ => Or.inr rfl) hpv hpu
      exact ⟨h.2, h.1⟩
    · have h := cr _ 1 (by linarith) (fun _ _ _ _ => Or.inl rfl) hpv hpu
      exact ⟨h.2, h.1⟩
    · exact absurd rfl huv
  · -- only s₂ is cut
    rw [if_neg h₁, if_pos h₂] at hu hv
    obtain ⟨hA, hB, hC, hD⟩ := h₂
    have hT₁ : crossT₁ s₁ s₂ = 0 ∨ crossT₁ s₁ s₂ = 1 := by
      by_contra hcon
      push_neg at hcon
      exact h₁ ⟨lt_of_le_of_ne hC (Ne.symm hcon.1), lt_of_le_of_ne hD hcon.2,
        hA.le, hB.le⟩
    simp only [List.mem_append, List.mem_cons, List.not_mem_nil, or_false] at hu hv
    have l34 := fun hx hy => @same_piece_leaf s₂ hr₂ 0 (crossT₂ s₁ s₂)
      (crossT₂ s₁ s₂) 1 hA.le (by linarith) le_rfl p hx hy
    have cr := fun (e e2 : ℚ) hee hv2 hx hy =>
      @cross_piece_leaf s₁ s₂ hd 0 1 e e2 zero_le_one hee
        (fun _ _ _ _ => hT₁) hv2 p hx hy
    rcases hu with rfl | rfl | rfl <;> rcases hv with rfl | rfl | rfl
    · exact absurd rfl huv
    · exact cr 0 _ hA.le (fun _ _ _ _ => Or.inr rfl) hpu hpv
    · exact cr _ 1 (by linarith) (fun _ _ _ _ => Or.inl rfl) hpu hpv
    · have h := cr 0 _ hA.le (fun _ _ _ _ => Or.inr rfl) hpv hpu
      exact ⟨h.2, h.1⟩
    · exact absurd rfl huv
    · exact l34 hpu hpv
    · have h := cr _ 1 (by linarith) (fun _ _ _ _ => Or.inl rfl) hpv hpu
      exact ⟨h.2, h.1⟩
    · exact ⟨(l34 hpv hpu).2, (l34 hpv hpu).1⟩
    · exact absurd rfl huv
  · -- neither segment is cut
    rw [if_neg h₁, if_neg h₂] at hu hv
    simp only [List.mem_append, List.mem_cons, List.not_mem_nil, or_false] at hu hv
    have cr := fun hx hy =>
      @cross_piece_leaf s₁ s₂ hd 0 1 0 1 zero_le_one zero_le_one
        (fun ha hb hc hd2 => by
          by_contra hcon
          push_neg at hcon
          exact h₁ ⟨lt_of_le_of_ne ha (Ne.symm hcon.1), lt_of_le_of_ne hb hcon.2,
            hc, hd2⟩)
        (fun ha hb hc hd2 => by
          by_contra hcon
          push_neg at hcon
          exact h₂ ⟨lt_of_le_of_ne hc (Ne.symm hcon.1), lt_of_le_of_ne hd2 hcon.2,
            ha, hb⟩)
        p hx hy
    rcases hu with rfl | rfl <;> rcases hv with rfl | rfl
    · exact absurd rfl huv
    · exact cr hpu hpv
    · have h := cr hpv hpu
      exact ⟨h.2, h.1⟩
    · exact absurd rfl huv

/-- Segment A of the topology-split test: (0,0) -> (10,0). -/
def segA : Seg2 := ⟨(0, 0), (10, 0)⟩

/-- Segment B of the topology-split test: (5,-5) -> (5,5). -/
def segB : Seg2 := ⟨(5, -5), (5, 5)⟩

/-! ### Witness material -/

theorem WF_initNS : WF initNS := ⟨rfl, rfl, List.Pairwise.nil⟩

/-- A minimal concrete row with distinct endpoint keys. -/
def rowSimple : Row := ⟨[(0, 0, 0), (1, 0, 0)], "", ""⟩

theorem rowSimple_key_ne :
    nodeKeyOf rowSimple.geometry.headI ≠ nodeKeyOf rowSimple.geometry.getLastI := by
  show nodeKeyOf (0, 0, 0) ≠ nodeKeyOf (1, 0, 0)
  norm_num [nodeKeyOf, round5, pyRound, Int.fract, round_eq, Prod.ext_iff]

theorem rowSimple_edges :
    (buildGraph [rowSimple]).2 =
      [⟨0, 1,
        shapelyLength rowSimple.geometry * trailFactor rowSimple.highway *
          priorityFactor rowSimple.mainTrail,
        rowSimple.geometry, computeMeasures rowSimple.geometry,
        computeMeasures rowSimple.geometry.reverse⟩] :=
  congrArg Prod.snd (buildGraph_singleton rowSimple rowSimple_key_ne)

theorem rowSimple_edge_mem :
    (buildGraph [rowSimple]).2.headI ∈ (buildGraph [rowSimple]).2 := by
  rw [rowSimple_edges]
  exact List.mem_cons_self _ _

/-! ### The claims -/

/-- C1: Node identity.  During graph construction (any registry reachable
from the empty one by interning the vertices `cs₀`, with any further
vertices `cs` interned in between), two vertices `c₁` and `c₂` are assigned
the same node id if and only if their planar (x, y) coordinates round to
the same value at 5 decimal places; the elevation z is not inspected by
`nodeKeyOf`, so two vertices equal in rounded (x, y) but differing in z
always receive the same id. -/
theorem C1_node_identity (cs₀ cs : List Coord) (c₁ c₂ : Coord) :
    (getNodeId (runNodeIds (getNodeId (runNodeIds initNS cs₀) c₁).2 cs) c₂).1 =
        (getNodeId (runNodeIds initNS cs₀) c₁).1 ↔
      nodeKeyOf c₂ = nodeKeyOf c₁ :=
  nodeId_eq_iff _ (WF_runNodeIds initNS WF_initNS cs₀) cs c₁ c₂

/-- C2: Measure consistency.  For every edge produced by `build_graph`, the
last forward measure distance equals the last reverse measure distance and
equals the geometry total 2D planar length (exactly, hence within 1e-6),
the last forward ascent equals the last reverse descent, and the last
forward descent equals the last reverse ascent. -/
theorem C2_measure_consistency (rows : List Row) (e : GEdge)
    (he : e ∈ (buildGraph rows).2) :
    (lastMeasure e.measuresForward).1 = (lastMeasure e.measuresReverse).1 ∧
    (lastMeasure e.measuresForward).1 = shapelyLength e.geometry ∧
    |(lastMeasure e.measuresForward).1 - shapelyLength e.geometry| ≤ 1 / 1000000 ∧
    (lastMeasure e.measuresForward).2.1 = (lastMeasure e.measuresReverse).2.2 ∧
    (lastMeasure e.measuresForward).2.2 = (lastMeasure e.measuresReverse).2.1 := by
  obtain ⟨-, hE⟩ := buildGraph_EdgeOK rows
  obtain ⟨-, -, -, -, hfwd, hrev, -⟩ := hE e he
  rw [hfwd, hrev, computeMeasures_last, computeMeasures_last]
  refine ⟨?_, rfl, by simp, ?_, ?_⟩
  · exact (shapelyLength_reverse e.geometry).symm
  · exact (pairSum_reverse (fun p q => (gainTerm_swap q p).symm) e.geometry).symm
  · exact (pairSum_reverse gainTerm_swap e.geometry).symm

/-- C2 witness at a concrete one-row graph. -/
theorem C2_measure_consistency_witness :
    (lastMeasure (buildGraph [rowSimple]).2.headI.measuresForward).1 =
        (lastMeasure (buildGraph [rowSimple]).2.headI.measuresReverse).1 ∧
    (lastMeasure (buildGraph [rowSimple]).2.headI.measuresForward).1 =
        shapelyLength (buildGraph [rowSimple]).2.headI.geometry ∧
    |(lastMeasure (buildGraph [rowSimple]).2.headI.measuresForward).1 -
        shapelyLength (buildGraph [rowSimple]).2.headI.geometry| ≤ 1 / 1000000 ∧
    (lastMeasure (buildGraph [rowSimple]).2.headI.measuresForward).2.1 =
        (lastMeasure (buildGraph [rowSimple]).2.headI.measuresReverse).2.2 ∧
    (lastMeasure (buildGraph [rowSimple]).2.headI.measuresForward).2.2 =
        (lastMeasure (buildGraph [rowSimple]).2.headI.measuresReverse).2.1 :=
  C2_measure_consistency [rowSimple] _ rowSimple_edge_mem

/-- C4: Degenerate edge rejection.  Every edge in the output of
`build_graph` has geometry whose first and last vertices round to distinct
node keys (so a segment whose endpoints snap to the same node id is never
emitted — equal keys force equal ids by C1), and no output edge is a
self-loop. -/
theorem C4_degenerate_rejected (rows : List Row) (e : GEdge)
    (he : e ∈ (buildGraph rows).2) :
    nodeKeyOf e.geometry.headI ≠ nodeKeyOf e.geometry.getLastI ∧
    e.startNode ≠ e.endNode := by
  obtain ⟨-, hE⟩ := buildGraph_EdgeOK rows
  obtain ⟨h1, -, -, h4, -⟩ := hE e he
  exact ⟨h4, h1⟩

/-- C4 witness at a concrete one-row graph. -/
theorem C4_degenerate_rejected_witness :
    nodeKeyOf (buildGraph [rowSimple]).2.headI.geometry.headI ≠
        nodeKeyOf (buildGraph [rowSimple]).2.headI.geometry.getLastI ∧
    (buildGraph [rowSimple]).2.headI.startNode ≠
        (buildGraph [rowSimple]).2.headI.endNode :=
  C4_degenerate_rejected [rowSimple] _ rowSimple_edge_mem

/-- C8: Measure sequence shape.  For every edge of `build_graph`, the
forward and reverse measure sequences both have length equal to the number
of vertices of the geometry, and both start exactly at (0.0, 0.0, 0.0). -/
theorem C8_measure_shape (rows : List Row) (e : GEdge)
    (he : e ∈ (buildGraph rows).2) :
    e.measuresForward.length = e.geometry.length ∧
    e.measuresReverse.length = e.geometry.length ∧
    e.measuresForward.headI = (0, 0, 0) ∧
    e.measuresReverse.headI = (0, 0, 0) := by
  obtain ⟨-, hE⟩ := buildGraph_EdgeOK rows
  obtain ⟨-, -, -, hkey, hfwd, hrev, -⟩ := hE e he
  have hg : e.geometry ≠ [] := by
    intro h
    rw [h] at hkey
    exact hkey rfl
  refine ⟨?_, ?_, ?_, ?_⟩
  · rw [hfwd]
    exact computeMeasures_length hg
  · rw [hrev, computeMeasures_length (by simpa using hg)]
    exact List.length_reverse e.geometry
  · rw [hfwd]
    exact computeMeasures_headI _
  · rw [hrev]
    exact computeMeasures_headI _

/-- C8 witness at a concrete one-row graph. -/
theorem C8_measure_shape_witness :
    (buildGraph [rowSimple]).2.headI.measuresForward.length =
        (buildGraph [rowSimple]).2.headI.geometry.length ∧
    (buildGraph [rowSimple]).2.headI.measuresReverse.length =
        (buildGraph [rowSimple]).2.headI.geometry.length ∧
    (buildGraph [rowSimple]).2.headI.measuresForward.headI = (0, 0, 0) ∧
    (buildGraph [rowSimple]).2.headI.measuresReverse.headI = (0, 0, 0) :=
  C8_measure_shape [rowSimple] _ rowSimple_edge_mem

/-- C9: Measure monotonicity.  In every measure sequence produced by
`compute_measures` — for any input coordinate list — cumulative distance,
cumulative ascent and cumulative descent are all nondecreasing from each
entry to the next. -/
theorem C9_measures_monotone (coords : List Coord) :
    List.Chain' mono3 (computeMeasures coords) := by
  cases coords with
  | nil => exact List.chain'_singleton _
  | cons p rest => exact measuresAux_chain rest p 0 0 0

/-- The weight-formula test segment: planar length 100, highway=path,
main_trail=yes. -/
def rowPathMain : Row := ⟨[(0, 0, 0), (100, 0, 0)], "path", "yes"⟩

/-- The same segment without the main-trail flag. -/
def rowPathPlain : Row := ⟨[(0, 0, 0), (100, 0, 0)], "path", ""⟩

theorem rowPath_key_ne :
    nodeKeyOf ((0, 0, 0) : Coord) ≠ nodeKeyOf ((100, 0, 0) : Coord) := by
  norm_num [nodeKeyOf, round5, pyRound, Int.fract, round_eq, Prod.ext_iff]

theorem shapelyLength_path100 :
    shapelyLength ([(0, 0, 0), (100, 0, 0)] : List Coord) = 100 := by
  show hypotQ (100 - 0) (0 - 0) + shapelyLength [((100 : ℚ), (0 : ℚ), (0 : ℚ))] = 100
  rw [show shapelyLength [((100 : ℚ), (0 : ℚ), (0 : ℚ))] = 0 from rfl, add_zero]
  unfold hypotQ
  rw [show (((100 : ℚ) - 0 : ℚ) : ℝ) = 100 by norm_num,
    show (((0 : ℚ) - 0 : ℚ) : ℝ) = 0 by norm_num,
    show (100 : ℝ) ^ 2 + 0 ^ 2 = 100 ^ 2 by norm_num]
  exact Real.sqrt_sq (by norm_num)

theorem rowPathMain_weight : (buildGraph [rowPathMain]).2.headI.weight = 5 := by
  rw [congrArg Prod.snd (buildGraph_singleton rowPathMain rowPath_key_ne)]
  show shapelyLength rowPathMain.geometry * trailFactor rowPathMain.highway *
      priorityFactor rowPathMain.mainTrail = 5
  rw [show rowPathMain.geometry = [(0, 0, 0), (100, 0, 0)] from rfl,
    shapelyLength_path100,
    show trailFactor rowPathMain.highway = 0.5 by simp [trailFactor, rowPathMain],
    show priorityFactor rowPathMain.mainTrail = 0.1 by
      simp [priorityFactor, rowPathMain]]
  norm_num

theorem rowPathPlain_weight : (buildGraph [rowPathPlain]).2.headI.weight = 50 := by
  rw [congrArg Prod.snd (buildGraph_singleton rowPathPlain rowPath_key_ne)]
  show shapelyLength rowPathPlain.geometry * trailFactor rowPathPlain.highway *
      priorityFactor rowPathPlain.mainTrail = 50
  rw [show rowPathPlain.geometry = [(0, 0, 0), (100, 0, 0)] from rfl,
    shapelyLength_path100,
    show trailFactor rowPathPlain.highway = 0.5 by simp [trailFactor, rowPathPlain],
    show priorityFactor rowPathPlain.mainTrail = 1 by
      simp [priorityFactor, rowPathPlain]]
  norm_num

/-- C3: Weight formula.  Every edge of `build_graph` carries weight
`geometry_length * trail_type_factor * priority_factor` for its generating
row; the trail factor is 0.5 exactly for highway path/track/footway and 1
otherwise; the priority factor is 0.1 exactly when the main-trail flag has
its truthy value "yes" (the only truthy encoding this pipeline writes) and
1 otherwise; and the two spec examples: a length-100 path with
main_trail=yes weighs 5.0, and without the flag 50.0. -/
theorem C3_weight_formula :
    (∀ (rows : List Row) (e : GEdge), e ∈ (buildGraph rows).2 →
        ∃ r ∈ rows, e.geometry = r.geometry ∧
          e.weight = shapelyLength r.geometry * trailFactor r.highway *
            priorityFactor r.mainTrail) ∧
    trailFactor "path" = 0.5 ∧ trailFactor "track" = 0.5 ∧
    trailFactor "footway" = 0.5 ∧ trailFactor "residential" = 1 ∧
    priorityFactor "yes" = 0.1 ∧ priorityFactor "" = 1 ∧
    (buildGraph [rowPathMain]).2.headI.weight = 5 ∧
    (buildGraph [rowPathPlain]).2.headI.weight = 50 := by
  refine ⟨?_, by simp [trailFactor], by simp [trailFactor],
    by simp [trailFactor], by simp [trailFactor],
    by simp [priorityFactor], by simp [priorityFactor],
    rowPathMain_weight, rowPathPlain_weight⟩
  intro rows e he
  obtain ⟨-, hE⟩ := buildGraph_EdgeOK rows
  obtain ⟨-, -, -, -, -, -, h7⟩ := hE e he
  exact h7

/-- C3 witness at a concrete one-row graph. -/
theorem C3_weight_formula_witness :
    ∃ r ∈ [rowSimple], (buildGraph [rowSimple]).2.headI.geometry = r.geometry ∧
      (buildGraph [rowSimple]).2.headI.weight =
        shapelyLength r.geometry * trailFactor r.highway *
          priorityFactor r.mainTrail :=
  C3_weight_formula.1 [rowSimple] _ rowSimple_edge_mem

/-- C10: Node coordinate provenance.  A key hit leaves the registry
untouched (so the coordinates stored by the first allocating vertex are
never overwritten — not even the z); a key miss allocates exactly the next
sequential id storing the unrounded (x, y, z) of the allocating vertex;
interning a vertex never removes stored nodes; and after any
`build_graph` run the node ids read 0, 1, 2, ... in insertion order with
every edge endpoint id strictly below the node count. -/
theorem C10_node_provenance :
    (∀ (s : NodeState) (c : Coord),
        (lookupKey s.node_index (nodeKeyOf c)).isSome = true →
          (getNodeId s c).2 = s) ∧
    (∀ (s : NodeState) (c : Coord),
        lookupKey s.node_index (nodeKeyOf c) = none →
          (getNodeId s c).1 = s.next_node_id ∧
          (getNodeId s c).2.nodes = s.nodes ++ [(s.next_node_id, c)] ∧
          (getNodeId s c).2.next_node_id = s.next_node_id + 1) ∧
    (∀ (s : NodeState) (c : Coord) (p : ℕ × Coord), p ∈ s.nodes →
        p ∈ (getNodeId s c).2.nodes) ∧
    (∀ rows : List Row,
        (buildGraph rows).1.nodes.map Prod.fst =
          List.range (buildGraph rows).1.next_node_id ∧
        ∀ e ∈ (buildGraph rows).2,
          e.startNode < (buildGraph rows).1.next_node_id ∧
          e.endNode < (buildGraph rows).1.next_node_id) := by
  refine ⟨?_, ?_, ?_, ?_⟩
  · intro s c h
    unfold getNodeId
    cases hl : lookupKey s.node_index (nodeKeyOf c) with
    | some i => rfl
    | none => rw [hl] at h; simp at h
  · intro s c h
    unfold getNodeId
    rw [h]
    exact ⟨rfl, rfl, rfl⟩
  · intro s c p hp
    exact getNodeId_nodes_mono s c hp
  · intro rows
    obtain ⟨hWF, hE⟩ := buildGraph_EdgeOK rows
    refine ⟨hWF.2.1, ?_⟩
    intro e he
    obtain ⟨-, h2, h3, -⟩ := hE e he
    exact ⟨h2, h3⟩

/-- A registry holding one node allocated by the vertex (0, 0, 5). -/
def stateW : NodeState := (getNodeId initNS ((0 : ℚ), (0 : ℚ), (5 : ℚ))).2

/-- C10 witness: a second vertex with the same rounded (x, y) but z = 9
leaves the registry of `stateW` unchanged; the first allocation stored id 0
with the exact coordinates; interning another vertex keeps the stored node;
and the one-row build has sequential node ids. -/
theorem C10_node_provenance_witness :
    (getNodeId stateW ((0 : ℚ), (0 : ℚ), (9 : ℚ))).2 = stateW ∧
    ((getNodeId initNS ((0 : ℚ), (0 : ℚ), (5 : ℚ))).1 = initNS.next_node_id ∧
      (getNodeId initNS ((0 : ℚ), (0 : ℚ), (5 : ℚ))).2.nodes =
        initNS.nodes ++ [(initNS.next_node_id, ((0 : ℚ), (0 : ℚ), (5 : ℚ)))] ∧
      (getNodeId initNS ((0 : ℚ), (0 : ℚ), (5 : ℚ))).2.next_node_id =
        initNS.next_node_id + 1) ∧
    (0, ((0 : ℚ), (0 : ℚ), (5 : ℚ))) ∈
      (getNodeId stateW ((1 : ℚ), (0 : ℚ), (0 : ℚ))).2.nodes ∧
    (buildGraph [rowSimple]).1.nodes.map Prod.fst =
      List.range (buildGraph [rowSimple]).1.next_node_id := by
  have h := C10_node_provenance
  refine ⟨?_, h.2.1 initNS ((0 : ℚ), (0 : ℚ), (5 : ℚ)) rfl, ?_,
    (h.2.2.2 [rowSimple]).1⟩
  · apply h.1
    have hmem : (nodeKeyOf ((0 : ℚ), (0 : ℚ), (9 : ℚ)), 0) ∈ stateW.node_index := by
      show (nodeKeyOf ((0 : ℚ), (0 : ℚ), (9 : ℚ)), 0) ∈
        [(nodeKeyOf ((0 : ℚ), (0 : ℚ), (5 : ℚ)), 0)]
      exact List.mem_singleton.mpr rfl
    rw [lookupKey_of_mem ?_ hmem]
    · rfl
    · show List.Pairwise _ [(nodeKeyOf ((0 : ℚ), (0 : ℚ), (5 : ℚ)), 0)]
      exact List.pairwise_singleton _ _
  · exact h.2.2.1 stateW ((1 : ℚ), (0 : ℚ), (0 : ℚ)) _
      (show (0, ((0 : ℚ), (0 : ℚ), (5 : ℚ))) ∈
        [(0, ((0 : ℚ), (0 : ℚ), (5 : ℚ)))] from List.mem_singleton.mpr rfl)

/-- The 1x1 test raster holding the single elevation value 7. -/
def demEx : List (List ℚ) := [[7]]

/-- C5: Elevation sampling.  The nodata half of the claim holds: a sampled
value equal to the declared nodata sentinel becomes elevation 0.0 (second
and third conjuncts show substitution and a normal read).  The
out-of-extent half is false in the code: `add_z_to_lines` has no try-or-
bounds handling, so a vertex whose row/column falls outside the raster
(here column 5 of a 1x1 raster) makes the numpy fancy index raise
IndexError — modelled as `none` — instead of yielding elevation 0.0. -/
theorem C5_raster_sampling :
    lineWithZ demEx (some (-9999)) (fun _ => (0, 5)) [(0, 0)] = none ∧
    lineWithZ demEx (some 7) (fun _ => (0, 0)) [(0, 0)] = some [(0, 0, 0)] ∧
    lineWithZ demEx (some (-9999)) (fun _ => (0, 0)) [(0, 0)] = some [(0, 0, 7)] := by
  refine ⟨?_, ?_, ?_⟩ <;>
    norm_num [lineWithZ, readSamples, sampleRaster, npGet, demEx]

/-- C6 counterexample: a split segment matching no original feature is NOT
dropped — the left spatial join keeps it, with null attributes.  Here the
single segment `0` matches nothing (the predicate is constantly false and
the original collection is empty), yet the joined collection still
contains it. -/
theorem C6_unmatched_kept_counterexample :
    attachAttrs (fun _ _ => false) [(0 : ℕ)] ([] : List (ℕ × ℕ)) = [(0, none)] := rfl

/-- C6 amended: `load_data` joins with `how="left"`, so a split segment
that matches no original is RETAINED with null attributes (and no counter
of unmatched segments exists anywhere); the only removal is the geometry
dedup.  The joined collection is exactly the deduplicated segment list,
each segment paired with its first within-match, if any. -/
theorem C6_left_join_keeps_unmatched {γ A : Type} [DecidableEq γ]
    (w : γ → γ → Bool) (segs : List γ) (orig : List (γ × A)) :
    attachAttrs w segs orig =
      (dedupKeepFirst segs).map fun s =>
        (s, (orig.find? fun f => w s f.1).map Prod.snd) :=
  attachAttrs_aux w orig segs []

/-- C6 witness at concrete lists (segment 1 matches, segment 0 does not,
segment 0 appears twice and is deduplicated). -/
theorem C6_left_join_keeps_unmatched_witness :
    attachAttrs (fun s f => decide (s = f)) [(0 : ℕ), 0, 1] [(1, (5 : ℕ))] =
      (dedupKeepFirst [(0 : ℕ), 0, 1]).map fun s =>
        (s, (([(1, (5 : ℕ))].find? fun f => decide (s = f.1)).map Prod.snd)) :=
  C6_left_join_keeps_unmatched (fun s f => decide (s = f)) [0, 0, 1] [(1, 5)]

/-- C7: Topology split.  For the two crossing test segments
A = (0,0)->(10,0) and B = (5,-5)->(5,5), the (spec-modelled) noderization
yields exactly 4 output segments, every one of which has the crossing
point (5,0) as an endpoint, and no two of these output segments meet at
any point other than a shared endpoint; more generally, for ANY two
non-parallel input segments, no two distinct output segments of the
noderization meet except at a shared endpoint. -/
theorem C7_topology_split :
    noderize [segA, segB] =
      [⟨(0, 0), (5, 0)⟩, ⟨(5, 0), (10, 0)⟩, ⟨(5, -5), (5, 0)⟩, ⟨(5, 0), (5, 5)⟩] ∧
    (noderize [segA, segB]).length = 4 ∧
    (∀ s ∈ noderize [segA, segB], s.a = (5, 0) ∨ s.b = (5, 0)) ∧
    (∀ s ∈ noderize [segA, segB], ∀ t ∈ noderize [segA, segB], s ≠ t →
      ∀ p : ℚ × ℚ, onSeg s p → onSeg t p →
        (p = s.a ∨ p = s.b) ∧ (p = t.a ∨ p = t.b)) ∧
    (∀ s₁ s₂ : Seg2, cross2 (sub2 s₁.b s₁.a) (sub2 s₂.b s₂.a) ≠ 0 →
      ∀ u ∈ noderize [s₁, s₂], ∀ v ∈ noderize [s₁, s₂], u ≠ v →
        ∀ p : ℚ × ℚ, onSeg u p → onSeg v p →
          (p = u.a ∨ p = u.b) ∧ (p = v.a ∨ p = v.b)) := by
  have hnod : noderize [segA, segB] =
      [⟨(0, 0), (5, 0)⟩, ⟨(5, 0), (10, 0)⟩, ⟨(5, -5), (5, 0)⟩, ⟨(5, 0), (5, 5)⟩] := by
    norm_num [noderize, splitSeg, splitParams, interParams, cross2, sub2, pointAt,
      segA, segB, adjPairs, List.filterMap, List.insertionSort, List.orderedInsert,
      List.dedup, List.flatMap, Seg2.mk.injEq, Prod.ext_iff]
  refine ⟨hnod, by rw [hnod]; rfl, ?_, ?_, noderize_two_no_cross⟩
  · intro s hs
    rw [hnod] at hs
    simp only [List.mem_cons, List.not_mem_nil, or_false] at hs
    rcases hs with rfl | rfl | rfl | rfl
    · exact Or.inr rfl
    · exact Or.inl rfl
    · exact Or.inr rfl
    · exact Or.inl rfl
  · intro s hs t ht hst p hp hq
    rw [hnod] at hs ht
    simp only [List.mem_cons, List.not_mem_nil, or_false] at hs ht
    obtain ⟨u, hu0, hu1, rfl⟩ := hp
    obtain ⟨v, hv0, hv1, hpv⟩ := hq
    rcases hs with rfl | rfl | rfl | rfl <;> rcases ht with rfl | rfl | rfl | rfl <;>
      [skip; skip; skip; skip; skip; skip; skip; skip; skip; skip; skip; skip;
        skip; skip; skip; skip] <;>
      (try exact absurd rfl hst) <;>
      (rw [Prod.ext_iff] at hpv
       simp only [pointAt] at hpv ⊢
       obtain ⟨h1, h2⟩ := hpv
       norm_num at h1 h2 hu0 hu1 hv0 hv1 ⊢) <;>
      first
        | (have hu : u = 1 := by linarith
           subst hu
           constructor <;> norm_num [Prod.ext_iff])
        | (have hu : u = 0 := by linarith
           subst hu
           constructor <;> norm_num [Prod.ext_iff])

/-- C7 witness: the shared-endpoint facts instantiated at concrete output
segments and their crossing point (5, 0), for both the instance conjunct
and the general non-parallel conjunct. -/
theorem C7_topology_split_witness :
    ((⟨(0, 0), (5, 0)⟩ : Seg2).a = (5, 0) ∨ (⟨(0, 0), (5, 0)⟩ : Seg2).b = (5, 0)) ∧
    ((((5 : ℚ), (0 : ℚ)) = (⟨(0, 0), (5, 0)⟩ : Seg2).a ∨
        ((5 : ℚ), (0 : ℚ)) = (⟨(0, 0), (5, 0)⟩ : Seg2).b) ∧
      (((5 : ℚ), (0 : ℚ)) = (⟨(5, 0), (10, 0)⟩ : Seg2).a ∨
        ((5 : ℚ), (0 : ℚ)) = (⟨(5, 0), (10, 0)⟩ : Seg2).b)) ∧
    ((((5 : ℚ), (0 : ℚ)) = (⟨(0, 0), (5, 0)⟩ : Seg2).a ∨
        ((5 : ℚ), (0 : ℚ)) = (⟨(0, 0), (5, 0)⟩ : Seg2).b) ∧
      (((5 : ℚ), (0 : ℚ)) = (⟨(5, -5), (5, 0)⟩ : Seg2).a ∨
        ((5 : ℚ), (0 : ℚ)) = (⟨(5, -5), (5, 0)⟩ : Seg2).b)) := by
  have h := C7_topology_split
  have hm1 : (⟨(0, 0), (5, 0)⟩ : Seg2) ∈ noderize [segA, segB] := by
    rw [h.1]
    exact List.mem_cons_self _ _
  have hm2 : (⟨(5, 0), (10, 0)⟩ : Seg2) ∈ noderize [segA, segB] := by
    rw [h.1]
    exact List.mem_cons_of_mem _ (List.mem_cons_self _ _)
  have hm3 : (⟨(5, -5), (5, 0)⟩ : Seg2) ∈ noderize [segA, segB] := by
    rw [h.1]
    exact List.mem_cons_of_mem _ (List.mem_cons_of_mem _ (List.mem_cons_self _ _))
  refine ⟨h.2.2.1 _ hm1, ?_, ?_⟩
  · refine h.2.2.2.1 _ hm1 _ hm2 ?_ ((5 : ℚ), (0 : ℚ)) ?_ ?_
    · norm_num [Seg2.mk.injEq, Prod.ext_iff]
    · exact ⟨1, by norm_num, by norm_num, by norm_num [pointAt, Prod.ext_iff]⟩
    · exact ⟨0, by norm_num, by norm_num, by norm_num [pointAt, Prod.ext_iff]⟩
  · refine h.2.2.2.2 segA segB ?_ _ hm1 _ hm3 ?_ ((5 : ℚ), (0 : ℚ)) ?_ ?_
    · norm_num [cross2, sub2, segA, segB]
    · norm_num [Seg2.mk.injEq, Prod.ext_iff]
    · exact ⟨1, by norm_num, by norm_num, by norm_num [pointAt, Prod.ext_iff]⟩
    · exact ⟨1, by norm_num, by norm_num, by norm_num [pointAt, Prod.ext_iff]⟩

end TopoAB
